import Mathlib

/-!
Verification of the caption timing / segmentation / subtitle-serialization core
of the facebook-caption repository (src/caption.py and src/handler.py).

Python strings are embedded as `List Char`; Python floats are embedded as `ℚ`
(exact rational arithmetic stands in for IEEE doubles, as is standard for a
shallow embedding; every claim checked here is insensitive to float rounding).
Python lists become Lean lists; per-line file contents become `List (List Char)`.
-/

namespace FBCap

/-- Python `str.strip()` whitespace test (ASCII inputs; `Char.isWhitespace`
covers space, tab, CR, LF, which is what occurs in the relevant data). -/
def pyIsSpace (c : Char) : Bool := c.isWhitespace

/-- Python `str.strip()` on a character list: drop whitespace at both ends. -/
def pyStrip (s : List Char) : List Char :=
  ((s.dropWhile pyIsSpace).reverse.dropWhile pyIsSpace).reverse

/-- Characters matched by the class `[A-Za-z0-9']` in
`re.findall(r"[A-Za-z0-9']+|-+", text)` (src/caption.py, `_evenly_time_words`). -/
def isWordChar (c : Char) : Bool := c.isAlpha || c.isDigit || c == '\''

/-- `re.findall(r"[A-Za-z0-9']+|-+", text)` from src/caption.py: maximal runs
of letters/digits/apostrophes, or maximal runs of hyphens; other characters
are separators.  One structural pass: a character of either class extends the
following token when the next character is of the same class (the run
continues), and otherwise opens a fresh token. -/
def findallTokens : List Char → List (List Char)
  | [] => []
  | [c] => if isWordChar c || c = '-' then [[c]] else []
  | c :: d :: cs =>
    let rest := findallTokens (d :: cs)
    if isWordChar c then
      if isWordChar d then
        match rest with
        | t :: ts => (c :: t) :: ts
        | [] => [[c]]
      else [c] :: rest
    else if c = '-' then
      if d = '-' then
        match rest with
        | t :: ts => (c :: t) :: ts
        | [] => [[c]]
      else [c] :: rest
    else rest

/-- The token list of `_evenly_time_words`:
`tokens = re.findall(...); tokens = [t for t in tokens if t.strip()]`. -/
def approxTokens (text : List Char) : List (List Char) :=
  (findallTokens text).filter (fun t => pyStrip t ≠ [])

/-- `_evenly_time_words(text, chunk_seconds, offset)` from src/caption.py:
if no tokens or `chunk_seconds <= 0` return `[]`, else spread the tokens
evenly: token `i` spans `[offset + i*per, offset + (i+1)*per)` where
`per = chunk_seconds / len(tokens)`.  Entries are `(start, end, word)`. -/
def evenlyTimeWords (text : List Char) (chunkSeconds offset : ℚ) :
    List (ℚ × ℚ × List Char) :=
  let tokens := approxTokens text
  if tokens.isEmpty ∨ chunkSeconds ≤ 0 then []
  else
    let per := chunkSeconds / tokens.length
    tokens.enum.map (fun p => (offset + p.1 * per, offset + (p.1 + 1) * per, p.2))

/-- A word entry, as consumed by `group_into_segments` (src/caption.py): a dict
with keys `start`, `end`, `word`.  The Lean field `stop` is the Python key
`end` (a Lean keyword).  Entries missing one of the three keys are skipped by
the code exactly like entries whose stripped text is empty; the model keeps
the three fields total and keeps the empty-text validity check. -/
structure Word where
  start : ℚ
  stop : ℚ
  word : List Char
deriving DecidableEq, Repr

/-- `word_text = str(w.get("word", "")).strip()` for an entry with the key. -/
def wordText (w : Word) : List Char := pyStrip w.word

/-- The validity check of `group_into_segments`: all three keys present (always
true in this model) and the stripped word text non-empty. -/
def validWord (w : Word) : Bool := decide (wordText w ≠ [])

/-- `" ".join(...)`: join character lists with a single space. -/
def joinSpace (ls : List (List Char)) : List Char := List.intercalate [' '] ls

/-- Closing a group into a segment (src/caption.py lines 150-153 and 161-164):
`(group[0]["start"], group[-1]["end"], " ".join(gw["word"].strip() for gw in group))`.
The defaults are never used: the code only closes non-empty groups. -/
def closeGroup (g : List Word) : ℚ × ℚ × List Char :=
  ((g.head?.map Word.start).getD 0, (g.getLast?.map Word.stop).getD 0,
    joinSpace (g.map wordText))

/-- `added_length = len(word_text) + (1 if group else 0)`. -/
def addedLength (g : List Word) (w : Word) : ℕ :=
  (wordText w).length + (if g.isEmpty then 0 else 1)

/-- The loop state of `group_into_segments`: emitted segments, current group,
running character count. -/
structure GState where
  segs : List (ℚ × ℚ × List Char)
  group : List Word
  charCount : ℕ
deriving DecidableEq, Repr

/-- One iteration of the `for w in words` loop of `group_into_segments`:
skip invalid entries; otherwise compute `added_length`, close the current
group when `char_count + added_length > max_chars` and the group is non-empty,
then append the word and accumulate `added_length`. -/
def groupStep (maxChars : ℤ) (st : GState) (w : Word) : GState :=
  if validWord w then
    let added := addedLength st.group w
    let st1 :=
      if (st.charCount + added : ℤ) > maxChars ∧ st.group ≠ [] then
        GState.mk (st.segs ++ [closeGroup st.group]) [] 0
      else st
    GState.mk st1.segs (st1.group ++ [w]) (st1.charCount + added)
  else st

/-- After the loop: `if group: segments.append(...)`. -/
def groupFinish (st : GState) : List (ℚ × ℚ × List Char) :=
  if st.group = [] then st.segs else st.segs ++ [closeGroup st.group]

/-- `group_into_segments(words, max_chars)` from src/caption.py. -/
def groupIntoSegments (words : List Word) (maxChars : ℤ) :
    List (ℚ × ℚ × List Char) :=
  groupFinish (words.foldl (groupStep maxChars) (GState.mk [] [] 0))

/-- `str(n)` for a natural number, as a character list. -/
def natChars (n : ℕ) : List Char := (toString n).data

/-- Number the elements of a list consecutively starting at `k`. -/
def numberFrom (k : ℕ) : List α → List (ℕ × α)
  | [] => []
  | x :: xs => (k, x) :: numberFrom (k + 1) xs

/-! ### `handler.py`: the SRT trimming step (handler, step 3a) -/

/-- A parsed SRT cue as the trimming loop of `handler` sees it after
`tosec` on both halves of `block[1]`: start seconds, end seconds, and the
remaining text lines `block[2:]`. -/
structure SCue where
  s : ℚ
  e : ℚ
  body : List (List Char)
deriving DecidableEq, Repr

/-- Python `max(a, b)` on two numbers: the first argument wins ties. -/
def pyMax (a b : ℚ) : ℚ := if b ≤ a then a else b

/-- One iteration of the trim loop in `handler` (src/handler.py lines 365-372):
keep the cue only when `s < DUR`; shorten `e` to `max(s, DUR - 0.01)` when
`e > DUR`; the new index is `len(trimmed) + 1`. -/
def trimStep (DUR : ℚ) (acc : List (ℕ × ℚ × ℚ × List (List Char))) (c : SCue) :
    List (ℕ × ℚ × ℚ × List (List Char)) :=
  if c.s < DUR then
    acc ++ [(acc.length + 1, c.s, if c.e > DUR then pyMax c.s (DUR - 1/100) else c.e, c.body)]
  else acc

/-- The trim loop of `handler` over a whole parsed track. -/
def trimTrack (DUR : ℚ) (cues : List SCue) : List (ℕ × ℚ × ℚ × List (List Char)) :=
  cues.foldl (trimStep DUR) []

/-- Outcome of the trim stage on the SRT file: either the file is left with
its pre-trim content, or it is overwritten with a trimmed track. -/
inductive TrimOutcome
  | kept
  | written (t : List (ℕ × ℚ × ℚ × List (List Char)))
deriving DecidableEq

/-- The whole `try`/`except`/`if trimmed:` trim stage of `handler`
(src/handler.py lines 344-377).  Everything inside the `try` before the write
(`ffprobe`, `float(dur)`, block parsing, `tosec`) can raise; a raised
exception is modelled by `probe = .error ()` and hits the bare
`except: pass`, leaving the file untouched.  With a duration `D` in hand the
loop produces `trimTrack D cues`, and the file is rewritten only when that
list is non-empty (`if trimmed:`). -/
def trimStage (cues : List SCue) (probe : Except Unit ℚ) : TrimOutcome :=
  match probe with
  | .error _ => .kept
  | .ok D => if trimTrack D cues = [] then .kept else .written (trimTrack D cues)

/-! ### `handler.py`: `_vtt_to_srt` -/

/-- `s.replace(".", ",")` for a single line. -/
def replDotComma (l : List Char) : List Char :=
  l.map (fun c => if c = '.' then ',' else c)

/-- Python `"-->" in s`. -/
def hasArrow : List Char → Bool
  | [] => false
  | '-' :: '-' :: '>' :: _ => true
  | _ :: cs => hasArrow cs

/-- Python `s.startswith("NOTE")`. -/
def noteStart : List Char → Bool
  | 'N' :: 'O' :: 'T' :: 'E' :: _ => true
  | _ => false

/-- The state of `_vtt_to_srt` (src/handler.py lines 113-143): emitted output
lines, next cue index, current block buffer. -/
structure VState where
  out : List (List Char)
  idx : ℕ
  buf : List (List Char)
deriving DecidableEq, Repr

/-- `flush_block()`: emit index, the timeline line with dots replaced by
commas, the buffered text lines, and a blank separator; clear the buffer. -/
def flushBlock (st : VState) : VState :=
  match st.buf with
  | [] => st
  | b0 :: rest =>
    VState.mk (st.out ++ [natChars st.idx, replDotComma b0] ++ rest ++ [[]]) (st.idx + 1) []

/-- One iteration of the `for ln in lines` loop of `_vtt_to_srt`: skip the
`WEBVTT` header and `NOTE` lines; a line containing `-->` flushes the current
block and starts a new one (stripped); a blank line flushes; any other line
is buffered verbatim. -/
def vttLine (st : VState) (ln : List Char) : VState :=
  let s := pyStrip ln
  if s = "WEBVTT".data ∨ noteStart s then st
  else if hasArrow s then
    let st1 := flushBlock st
    VState.mk st1.out st1.idx [s]
  else if s = [] then flushBlock st
  else VState.mk st.out st.idx (st.buf ++ [ln])

/-- `_vtt_to_srt` on the line list `vtt.splitlines()`, returning the output
line list (the Python function returns `"\n".join(out) + "\n"`). -/
def vttToSrtLines (lines : List (List Char)) : List (List Char) :=
  (flushBlock (lines.foldl vttLine (VState.mk [] 1 []))).out

/-- The expected SRT line shape, written from the spec sentence for the
`WEBVTT` conversion: for each cue block, a sequential index starting at 1, the
stripped timestamp line with `.` replaced by `,`, the text lines verbatim, and
a blank separator.  Used as the comparison target for `vttToSrtLines`. -/
def srtExpected (k : ℕ) : List (List Char × List (List Char)) → List (List Char)
  | [] => []
  | b :: rest =>
    natChars k :: replDotComma (pyStrip b.1) :: (b.2 ++ [] :: srtExpected (k + 1) rest)

/-- The line list of a VTT cue block followed by its blank separator. -/
def blockLines (b : List Char × List (List Char)) : List (List Char) :=
  b.1 :: b.2 ++ [[]]

/-! ### `handler.py`: `_timestamped_txt_to_srt` -/

/-- `\s*` : drop leading regex whitespace. -/
def dropWs (l : List Char) : List Char := l.dropWhile pyIsSpace

/-- `\d+` : a non-empty run of digits, returning the run and the rest. -/
def digitRun (l : List Char) : Option (List Char × List Char) :=
  let d := l.takeWhile Char.isDigit
  if d = [] then none else some (d, l.dropWhile Char.isDigit)

/-- `\d+(?:\.\d+)?` as used in `pat_secs`: a digit run with an optional
fractional part; when a dot is not followed by digits the optional group
matches nothing (the dot is left unconsumed, exactly as the regex would
before failing on the following `-->`). -/
def numTok (l : List Char) : Option (List Char × List Char) :=
  match digitRun l with
  | none => none
  | some (d, rest) =>
    match rest with
    | '.' :: rest2 =>
      match digitRun rest2 with
      | some (f, rest3) => some (d ++ '.' :: f, rest3)
      | none => some (d, rest)
    | _ => some (d, rest)

/-- The literal `-->`. -/
def arrowTok : List Char → Option (List Char)
  | '-' :: '-' :: '>' :: rest => some rest
  | _ => none

/-- `\d\d:\d\d:\d\d\.\d{3}` as used in `pat_hms`. -/
def hmsTok : List Char → Option (List Char × List Char)
  | a :: b :: ':' :: c :: d :: ':' :: e :: f :: '.' :: g :: h :: i :: rest =>
    if [a, b, c, d, e, f, g, h, i].all Char.isDigit then
      some ([a, b, ':', c, d, ':', e, f, '.', g, h, i], rest)
    else none
  | _ => none

/-- `pat_secs = ^\s*(\d+(?:\.\d+)?)\s*-->\s*(\d+(?:\.\d+)?)\s*$`
(src/handler.py line 86), returning the two captured groups. -/
def patSecs (l : List Char) : Option (List Char × List Char) :=
  match numTok (dropWs l) with
  | none => none
  | some (s, r1) =>
    match arrowTok (dropWs r1) with
    | none => none
    | some r2 =>
      match numTok (dropWs r2) with
      | none => none
      | some (e, r3) => if dropWs r3 = [] then some (s, e) else none

/-- `pat_hms = ^\s*(\d\d:\d\d:\d\d\.\d{3})\s*-->\s*(\d\d:\d\d:\d\d\.\d{3})\s*$`
(src/handler.py line 87), returning the two captured groups. -/
def patHms (l : List Char) : Option (List Char × List Char) :=
  match hmsTok (dropWs l) with
  | none => none
  | some (s, r1) =>
    match arrowTok (dropWs r1) with
    | none => none
    | some r2 =>
      match hmsTok (dropWs r2) with
      | none => none
      | some (e, r3) => if dropWs r3 = [] then some (s, e) else none

/-- `pat_secs.match(line) or pat_hms.match(line)`. -/
def matchTs (l : List Char) : Option (List Char × List Char) :=
  (patSecs l).orElse (fun _ => patHms l)

/-- The body of the `while i < len(lines)` scan loop of
`_timestamped_txt_to_srt` (src/handler.py lines 98-107), with the loop variant
made explicit as fuel (the index `i` strictly increases each iteration, so the
loop runs at most once per line): a line matching one of the two timestamp
patterns, followed by a line with non-blank text, yields a `(s, e, text)`
triple and the loop advances past the pair plus one following blank line;
every other line advances by one (is skipped). -/
def scanLoop : ℕ → List (List Char) → List (List Char × List Char × List Char)
  | 0, _ => []
  | _ + 1, [] => []
  | fuel + 1, l :: rest =>
    match matchTs l with
    | some (s, e) =>
      match rest with
      | t :: rest2 =>
        if pyStrip t ≠ [] then
          (s, e, pyStrip t) ::
            (match rest2 with
             | b :: rest3 =>
               if pyStrip b = [] then scanLoop fuel rest3 else scanLoop fuel rest2
             | [] => [])
        else scanLoop fuel rest
      | [] => []
    | none => scanLoop fuel rest

/-- The scan loop of `_timestamped_txt_to_srt` run on the whole file. -/
def scanCues (lines : List (List Char)) : List (List Char × List Char × List Char) :=
  scanLoop lines.length lines

/-- Characters of a digit run, as a natural number (Python `int(...)` on a
digit string). -/
def digitsToNat (l : List Char) : ℕ :=
  l.foldl (fun n c => 10 * n + (c.toNat - 48)) 0

/-- Remove the first `.` of a string: Python `t.replace('.', '', 1)`. -/
def removeFirstDot : List Char → List Char
  | [] => []
  | '.' :: rest => rest
  | c :: rest => c :: removeFirstDot rest

/-- The seconds-form test of `_fmt_hms`:
`t.replace('.', '', 1).isdigit()` (non-empty and all digits). -/
def pySecsCheck (t : List Char) : Bool :=
  decide (removeFirstDot t ≠ []) && (removeFirstDot t).all Char.isDigit

/-- A decimal string `\d+(\.\d+)?` as an exact rational (the model of Python
`float(t)`; the strings reaching this point carry few enough digits for the
rational value to be the intended one). -/
def decStrToRat (t : List Char) : ℚ :=
  let intPart := t.takeWhile Char.isDigit
  match t.dropWhile Char.isDigit with
  | '.' :: frac => (digitsToNat intPart : ℚ) + (digitsToNat frac : ℚ) / (10 ^ frac.length)
  | _ => (digitsToNat intPart : ℚ)

/-- Python `round()` (banker's rounding: half to even). -/
def pyRound (q : ℚ) : ℤ :=
  let f := ⌊q⌋
  let r := q - f
  if r < 1/2 then f else if 1/2 < r then f + 1 else if f % 2 = 0 then f else f + 1

/-- Python `"".split(sep)` for a one-character separator. -/
def splitOnChar (sep : Char) : List Char → List (List Char)
  | [] => [[]]
  | c :: rest =>
    if c = sep then [] :: splitOnChar sep rest
    else
      match splitOnChar sep rest with
      | [] => [[c]]
      | h :: t => (c :: h) :: t

/-- Zero-padded decimal rendering, Python `f"{n:0wd}"`. -/
def padNum (w : ℕ) (n : ℕ) : List Char :=
  List.replicate (w - (natChars n).length) '0' ++ natChars n

/-- The tail of `_fmt_hms`: total milliseconds to `HH:MM:SS,mmm`. -/
def msToStamp (msTotal : ℕ) : List Char :=
  padNum 2 (msTotal / 3600000) ++ ':' ::
    (padNum 2 (msTotal % 3600000 / 60000) ++ ':' ::
      (padNum 2 (msTotal % 3600000 % 60000 / 1000) ++ ',' :: padNum 3 (msTotal % 1000)))

/-- `_fmt_hms(t)` from `_timestamped_txt_to_srt`: a seconds string is scaled
to milliseconds and rounded; an `HH:MM:SS.mmm` string is taken apart on `:`
and `.`.  The `0` fallbacks sit where Python would raise `ValueError`; they
are unreachable for strings produced by the two patterns. -/
def fmtHms (t : List Char) : List Char :=
  let msTotal : ℕ :=
    if pySecsCheck t then (pyRound (decStrToRat t * 1000)).toNat
    else
      match splitOnChar ':' t with
      | [hh, mm, rest] =>
        match splitOnChar '.' rest with
        | [ss, mmm] =>
          (digitsToNat hh * 3600 + digitsToNat mm * 60 + digitsToNat ss) * 1000 + digitsToNat mmm
        | _ => 0
      | _ => 0
  msToStamp msTotal

/-- `_timestamped_txt_to_srt` (src/handler.py lines 82-111) on the line list
of the input file: scan for cues; raise
`RuntimeError("No caption lines found to convert to SRT.")` when none parse;
otherwise the written SRT blocks are `(index, _fmt_hms(s), _fmt_hms(e), text)`
numbered from 1. -/
def timestampedTxtToSrt (lines : List (List Char)) :
    Except (List Char) (List (ℕ × List Char × List Char × List Char)) :=
  let out := scanCues lines
  if out = [] then .error ("No caption lines found to convert to SRT.".data)
  else .ok (numberFrom 1 (out.map (fun c => (fmtHms c.1, fmtHms c.2.1, c.2.2))))

/-- A header-area line of a VTT input: the `WEBVTT` magic, a `NOTE` line, or a
blank line. -/
def vttPreLine (p : List Char) : Prop :=
  pyStrip p = "WEBVTT".data ∨ noteStart (pyStrip p) = true ∨ pyStrip p = []

/-- A well-formed VTT cue timestamp line: contains `-->` and is not a `NOTE`
line. -/
def vttTsLine (l : List Char) : Prop :=
  hasArrow (pyStrip l) = true ∧ noteStart (pyStrip l) = false

/-- A well-formed VTT cue text line: non-blank, no `-->`, not the `WEBVTT`
magic, not a `NOTE` line. -/
def vttTextLine (x : List Char) : Prop :=
  pyStrip x ≠ [] ∧ hasArrow (pyStrip x) = false ∧
    pyStrip x ≠ "WEBVTT".data ∧ noteStart (pyStrip x) = false

instance : DecidablePred vttPreLine := fun p => by
  unfold vttPreLine
  infer_instance

instance : DecidablePred vttTsLine := fun l => by
  unfold vttTsLine
  infer_instance

instance : DecidablePred vttTextLine := fun x => by
  unfold vttTextLine
  infer_instance

/-- Position `i` of a line list holds a line matching one of the two timestamp
patterns, immediately followed by a line with non-blank text — the only
configuration `_timestamped_txt_to_srt` turns into a cue. -/
def tsTextPairAt (lines : List (List Char)) (i : ℕ) : Prop :=
  (∃ se, matchTs (lines.getD i []) = some se) ∧
  i + 1 < lines.length ∧ pyStrip (lines.getD (i + 1) []) ≠ []

/-! ### Helper lemmas -/

/-- The trim loop with an arbitrary accumulator: it appends the kept cues,
numbered consecutively after the accumulator. -/
theorem trimFold_eq (D : ℚ) (cues : List SCue)
    (acc : List (ℕ × ℚ × ℚ × List (List Char))) :
    cues.foldl (trimStep D) acc =
      acc ++ numberFrom (acc.length + 1)
        ((cues.filter (fun c => c.s < D)).map
          (fun c => (c.s, if D < c.e then pyMax c.s (D - 1/100) else c.e, c.body))) := by
  induction cues generalizing acc with
  | nil => simp [numberFrom]
  | cons c cs ih =>
    rw [List.foldl_cons, ih]
    by_cases h : c.s < D
    · have hstep : trimStep D acc c =
          acc ++ [(acc.length + 1, c.s,
            if D < c.e then pyMax c.s (D - 1/100) else c.e, c.body)] := by
        simp [trimStep, h]
      rw [hstep, List.filter_cons_of_pos (by simpa using h), List.map_cons]
      rw [show (acc ++ [(acc.length + 1, c.s,
            if D < c.e then pyMax c.s (D - 1/100) else c.e, c.body)]).length =
          acc.length + 1 by simp]
      rw [List.append_assoc]
      rfl
    · have hstep : trimStep D acc c = acc := by simp [trimStep, h]
      rw [hstep, List.filter_cons_of_neg (by simpa using h)]

/-- `groupStep` on a valid word, written as a single conditional. -/
theorem groupStep_eq (maxChars : ℤ) (st : GState) (w : Word)
    (hv : validWord w = true) :
    groupStep maxChars st w =
      if ((st.charCount : ℤ) + (addedLength st.group w : ℤ) > maxChars ∧ st.group ≠ []) then
        GState.mk (st.segs ++ [closeGroup st.group]) [w] (addedLength st.group w)
      else GState.mk st.segs (st.group ++ [w]) (st.charCount + addedLength st.group w) := by
  simp only [groupStep, hv, if_true]
  split
  · simp
  · rfl

/-! ### Claim theorems -/

/-- C2: `group_into_segments` follows the close-before-add policy.  For any
loop state with a non-empty group and any valid token, when the running count
plus the added length (trimmed length plus one joining space) strictly exceeds
`max_chars`, the step closes the current group into a cue
`(first start, last end, space-joined text)` and restarts the group with the
token alone; when the sum is at most `max_chars` (equality included) the token
joins the current group.  On tokens hello(0,1), world(1,2), foo(2,3) with
`max_chars = 10` the output is exactly [(0,1,"hello"), (1,3,"world foo")]. -/
theorem groupIntoSegments_close_before_add :
    (∀ (maxChars : ℤ) (st : GState) (w : Word), validWord w = true → st.group ≠ [] →
      ((((st.charCount + ((wordText w).length + 1) : ℕ) : ℤ) > maxChars →
          groupStep maxChars st w =
            GState.mk (st.segs ++ [closeGroup st.group]) [w] ((wordText w).length + 1)) ∧
       (((st.charCount + ((wordText w).length + 1) : ℕ) : ℤ) ≤ maxChars →
          groupStep maxChars st w =
            GState.mk st.segs (st.group ++ [w])
              (st.charCount + ((wordText w).length + 1))))) ∧
    groupIntoSegments
      [Word.mk 0 1 "hello".data, Word.mk 1 2 "world".data, Word.mk 2 3 "foo".data] 10 =
      [(0, 1, "hello".data), (1, 3, "world foo".data)] := by
  constructor
  · intro maxChars st w hv hg
    have hie : st.group.isEmpty = false := by
      cases h : st.group with
      | nil => exact absurd h hg
      | cons a l => rfl
    have hadd : addedLength st.group w = (wordText w).length + 1 := by
      simp [addedLength, hie]
    have hstep := groupStep_eq maxChars st w hv
    constructor
    · intro hgt
      have hcond : (st.charCount : ℤ) + (addedLength st.group w : ℤ) > maxChars ∧
          st.group ≠ [] := by
        refine ⟨?_, hg⟩
        rw [hadd]
        push_cast
        push_cast at hgt
        linarith
      rw [hstep, if_pos hcond, hadd]
    · intro hle
      have hcond : ¬ ((st.charCount : ℤ) + (addedLength st.group w : ℤ) > maxChars ∧
          st.group ≠ []) := by
        rw [hadd]
        intro hc
        have h1 := hc.1
        push_cast at h1
        push_cast at hle
        linarith
      rw [hstep, if_neg hcond, hadd]
  · decide

/-- C2 witness: the close-before-add step on the concrete state reached after
"hello" with max_chars = 10 and incoming token "world". -/
theorem groupIntoSegments_close_before_add_witness :
    groupStep 10 (GState.mk [] [Word.mk 0 1 "hello".data] 5) (Word.mk 1 2 "world".data) =
      GState.mk [(0, 1, "hello".data)] [Word.mk 1 2 "world".data] 6 := by
  have h := (groupIntoSegments_close_before_add.1 10
      (GState.mk [] [Word.mk 0 1 "hello".data] 5) (Word.mk 1 2 "world".data)
      (by decide) (by decide)).1 (by decide)
  exact h.trans (by decide)

/-- C4: the trimming step drops every cue whose start is at or after the
duration ceiling, shortens every surviving cue whose end exceeds the ceiling
to `max(start, duration - 0.01)`, leaves all other cues' times unchanged, and
renumbers the survivors from 1; with duration 10 the cue (9,12,"x") becomes
(9, 9.99, "x") and the cue (10,11,"y") is dropped. -/
theorem trimTrack_spec :
    (∀ (D : ℚ) (cues : List SCue),
      trimTrack D cues =
        numberFrom 1 ((cues.filter (fun c => c.s < D)).map
          (fun c => (c.s, if D < c.e then pyMax c.s (D - 1/100) else c.e, c.body)))) ∧
    trimTrack 10 [SCue.mk 9 12 [['x']], SCue.mk 10 11 [['y']]] =
      [(1, 9, 999/100, [['x']])] := by
  constructor
  · intro D cues
    have h := trimFold_eq D cues []
    simpa [trimTrack] using h
  · norm_num [trimTrack, trimStep, pyMax, numberFrom]

/-- C4 witness: the concrete trim of the example track at duration 10. -/
theorem trimTrack_spec_witness :
    trimTrack 10 [SCue.mk 9 12 [['x']], SCue.mk 10 11 [['y']]] =
      [(1, 9, 999/100, [['x']])] :=
  trimTrack_spec.2

/-- C10: when the trim stage of `handler` hits an exception (modelled by a
failed duration probe) or produces zero surviving cues, the SRT file keeps its
pre-trim content; a written track is never empty. -/
theorem trimStage_never_writes_empty :
    ∀ (cues : List SCue) (probe : Except Unit ℚ),
      (probe = Except.error () → trimStage cues probe = TrimOutcome.kept) ∧
      (∀ D : ℚ, probe = Except.ok D → trimTrack D cues = [] →
        trimStage cues probe = TrimOutcome.kept) ∧
      (∀ t, trimStage cues probe = TrimOutcome.written t → t ≠ []) := by
  intro cues probe
  refine ⟨?_, ?_, ?_⟩
  · intro h
    subst h
    rfl
  · intro D h ht
    subst h
    simp [trimStage, ht]
  · intro t h ht
    subst ht
    cases probe with
    | error e => simp [trimStage] at h
    | ok D =>
      by_cases he : trimTrack D cues = []
      · simp [trimStage, he] at h
      · simp [trimStage, he] at h

/-- C10 witness: a track whose single cue starts at the media duration is
trimmed to nothing, and the stage keeps the original file content. -/
theorem trimStage_never_writes_empty_witness :
    trimStage [SCue.mk 10 11 [['y']]] (Except.ok 10) = TrimOutcome.kept :=
  (trimStage_never_writes_empty [SCue.mk 10 11 [['y']]] (Except.ok 10)).2.1
    10 rfl (by decide)

/-- C5: `_evenly_time_words` on a text whose tokenization is non-empty, a
chunk duration `D > 0` and an offset `≥ 0` returns one timed entry per token,
entry `i` spanning `[offset + i*(D/n), offset + (i+1)*(D/n))`; every entry has
length `D/n`, the first starts at `offset`, the last ends at `offset + D`;
with no tokens or `D ≤ 0` the result is empty. -/
theorem evenlyTimeWords_spec :
    ∀ (text : List Char) (D off : ℚ), 0 ≤ off →
      ((approxTokens text = [] ∨ D ≤ 0) → evenlyTimeWords text D off = []) ∧
      (approxTokens text ≠ [] → 0 < D →
        (evenlyTimeWords text D off).length = (approxTokens text).length ∧
        (∀ i : ℕ, (evenlyTimeWords text D off)[i]? =
          ((approxTokens text)[i]?).map (fun tok =>
            (off + i * (D / ((approxTokens text).length : ℚ)),
             off + (i + 1) * (D / ((approxTokens text).length : ℚ)), tok))) ∧
        (∀ p ∈ evenlyTimeWords text D off,
          p.2.1 - p.1 = D / ((approxTokens text).length : ℚ)) ∧
        (evenlyTimeWords text D off).head?.map (fun p => p.1) = some off ∧
        (evenlyTimeWords text D off).getLast?.map (fun p => p.2.1) = some (off + D)) := by
  intro text D off _hoff
  constructor
  · intro h
    rcases h with h | h
    · simp [evenlyTimeWords, h]
    · simp [evenlyTimeWords, h]
  · intro hne hD
    have hD' : ¬ D ≤ 0 := not_le.mpr hD
    have hie : (approxTokens text).isEmpty = false := by
      cases h : approxTokens text with
      | nil => exact absurd h hne
      | cons a l => rfl
    have hmain : evenlyTimeWords text D off =
        (approxTokens text).enum.map (fun p =>
          (off + p.1 * (D / ((approxTokens text).length : ℚ)),
           off + (p.1 + 1) * (D / ((approxTokens text).length : ℚ)), p.2)) := by
      simp [evenlyTimeWords, hie, hD']
    have hlen : (evenlyTimeWords text D off).length = (approxTokens text).length := by
      rw [hmain, List.length_map, List.enum_length]
    have hget : ∀ i : ℕ, (evenlyTimeWords text D off)[i]? =
        ((approxTokens text)[i]?).map (fun tok =>
          (off + i * (D / ((approxTokens text).length : ℚ)),
           off + (i + 1) * (D / ((approxTokens text).length : ℚ)), tok)) := by
      intro i
      rw [hmain, List.getElem?_map, List.getElem?_enum, Option.map_map]
      rfl
    have hn0 : ((approxTokens text).length : ℚ) ≠ 0 := by
      have := List.length_pos.mpr hne
      exact_mod_cast Nat.pos_iff_ne_zero.mp this
    refine ⟨hlen, hget, ?_, ?_, ?_⟩
    · intro p hp
      rw [hmain] at hp
      rcases List.mem_map.mp hp with ⟨q, _hq, rfl⟩
      push_cast
      ring
    · rw [List.head?_eq_getElem?, hget 0]
      rcases List.exists_cons_of_ne_nil hne with ⟨t, ts, htt⟩
      rw [htt]
      norm_num
    · rw [List.getLast?_eq_getElem?, hlen, hget ((approxTokens text).length - 1)]
      have hlt : (approxTokens text).length - 1 < (approxTokens text).length := by
        have := List.length_pos.mpr hne
        omega
      rw [List.getElem?_eq_getElem hlt]
      have hcast : (((approxTokens text).length - 1 : ℕ) : ℚ) + 1 =
          ((approxTokens text).length : ℚ) := by
        have h1 : 1 ≤ (approxTokens text).length := List.length_pos.mpr hne
        push_cast [Nat.cast_sub h1]
        ring
      simp only [Option.map_some']
      rw [hcast, mul_comm, div_mul_cancel₀ _ hn0]

/-- C5 witness: "hi there" split over 2 seconds from offset 1 starts at 1 and
ends at 3. -/
theorem evenlyTimeWords_spec_witness :
    (evenlyTimeWords "hi there".data 2 1).head?.map (fun p => p.1) = some 1 ∧
    (evenlyTimeWords "hi there".data 2 1).getLast?.map (fun p => p.2.1) = some (1 + 2) := by
  have h := (evenlyTimeWords_spec "hi there".data 2 1 (by norm_num)).2
    (by decide) (by norm_num)
  exact ⟨h.2.2.2.1, h.2.2.2.2⟩

/-- Shifting a timestamp/text pair across a leading line. -/
theorem tsTextPairAt_cons_succ (l : List Char) (rest : List (List Char)) (i : ℕ) :
    tsTextPairAt (l :: rest) (i + 1) ↔ tsTextPairAt rest i := by
  simp [tsTextPairAt, List.getD_cons_succ, Nat.succ_lt_succ_iff]

/-- With enough fuel, the scan loop finds at least one cue exactly when some
line position holds a timestamp line followed by non-blank text. -/
theorem scanLoop_ne_nil_iff (fuel : ℕ) :
    ∀ lines : List (List Char), lines.length ≤ fuel →
      (scanLoop fuel lines ≠ [] ↔ ∃ i, tsTextPairAt lines i) := by
  induction fuel with
  | zero =>
    intro lines hlen
    have : lines = [] := List.eq_nil_of_length_eq_zero (Nat.le_zero.mp hlen)
    subst this
    simp [scanLoop, tsTextPairAt]
  | succ fuel ih =>
    intro lines hlen
    cases lines with
    | nil => simp [scanLoop, tsTextPairAt]
    | cons l rest =>
      rw [List.length_cons, Nat.succ_le_succ_iff] at hlen
      by_cases hm : ∃ se, matchTs l = some se
      · rcases hm with ⟨⟨s, e⟩, hm⟩
        cases rest with
        | nil =>
          constructor
          · intro h
            exact absurd (by simp [scanLoop, hm]) h
          · rintro ⟨i, ⟨_, hlt, _⟩⟩
            simp at hlt
        | cons t rest2 =>
          by_cases hb : pyStrip t = []
          · have heq : scanLoop (fuel + 1) (l :: t :: rest2) =
                scanLoop fuel (t :: rest2) := by
              simp [scanLoop, hm, hb]
            rw [heq, ih (t :: rest2) hlen]
            constructor
            · rintro ⟨i, hi⟩
              exact ⟨i + 1, (tsTextPairAt_cons_succ _ _ _).mpr hi⟩
            · rintro ⟨i, hi⟩
              cases i with
              | zero =>
                rcases hi with ⟨_, _, hbt⟩
                simp [List.getD_cons_succ, List.getD_cons_zero] at hbt
                exact absurd hb hbt
              | succ j =>
                exact ⟨j, (tsTextPairAt_cons_succ _ _ _).mp hi⟩
          · constructor
            · intro _
              refine ⟨0, ⟨(s, e), by simpa using hm⟩, by simp, ?_⟩
              simpa [List.getD_cons_succ, List.getD_cons_zero] using hb
            · intro _
              simp [scanLoop, hm, hb]
      · have hm' : matchTs l = none := by
          cases h : matchTs l with
          | none => rfl
          | some v => exact absurd ⟨v, h⟩ hm
        have heq : scanLoop (fuel + 1) (l :: rest) = scanLoop fuel rest := by
          simp [scanLoop, hm']
        rw [heq, ih rest hlen]
        constructor
        · rintro ⟨i, hi⟩
          exact ⟨i + 1, (tsTextPairAt_cons_succ _ _ _).mpr hi⟩
        · rintro ⟨i, hi⟩
          cases i with
          | zero =>
            rcases hi with ⟨⟨se, hse⟩, _, _⟩
            rw [List.getD_cons_zero, hm'] at hse
            exact Option.noConfusion hse
          | succ j =>
            exact ⟨j, (tsTextPairAt_cons_succ _ _ _).mp hi⟩

/-- The scan of `_timestamped_txt_to_srt` finds at least one cue exactly when
some line position holds a timestamp line followed by non-blank text. -/
theorem scanCues_ne_nil_iff (lines : List (List Char)) :
    scanCues lines ≠ [] ↔ ∃ i, tsTextPairAt lines i :=
  scanLoop_ne_nil_iff lines.length lines (Nat.le_refl _)

/-- C3: decoding a whole caption transcript file that yields zero cues is a
hard failure — `_timestamped_txt_to_srt` raises exactly when no line of the
file is a timestamp line followed by a non-blank text line; when at least one
cue parses, the unparseable lines are skipped and the cues are returned
numbered from 1. -/
theorem timestampedTxtToSrt_zero_cues_fails :
    ∀ lines : List (List Char),
      ((∃ msg, timestampedTxtToSrt lines = Except.error msg) ↔
        ¬ ∃ i, tsTextPairAt lines i) ∧
      (scanCues lines ≠ [] →
        timestampedTxtToSrt lines =
          Except.ok (numberFrom 1 ((scanCues lines).map
            (fun c => (fmtHms c.1, fmtHms c.2.1, c.2.2))))) := by
  intro lines
  have hiff := scanCues_ne_nil_iff lines
  constructor
  · constructor
    · rintro ⟨msg, hmsg⟩ hex
      have hne := hiff.mpr hex
      simp [timestampedTxtToSrt, hne] at hmsg
    · intro hnex
      have h0 : scanCues lines = [] := by
        by_contra hne
        exact hnex (hiff.mp hne)
      exact ⟨"No caption lines found to convert to SRT.".data,
        by simp [timestampedTxtToSrt, h0]⟩
  · intro hne
    simp [timestampedTxtToSrt, hne]

/-- C3 witness: a file with one two-line cue block and junk around it decodes
to that single cue. -/
theorem timestampedTxtToSrt_zero_cues_fails_witness :
    timestampedTxtToSrt
      ["garbage".data, "00:00:12.340 --> 00:00:15.670".data, "some text".data] =
      Except.ok [(1, "00:00:12,340".data, "00:00:15,670".data, "some text".data)] := by
  have h := (timestampedTxtToSrt_zero_cues_fails
      ["garbage".data, "00:00:12.340 --> 00:00:15.670".data, "some text".data]).2
    (by decide)
  exact h.trans (by rfl)

/-- A single line alone can never produce a cue: the scan needs a following
text line. -/
theorem scanLoop_singleton (fuel : ℕ) (l : List Char) : scanLoop fuel [l] = [] := by
  cases fuel with
  | zero => rfl
  | succ f =>
    have hnil : scanLoop f [] = [] := by cases f <;> rfl
    rcases h : matchTs l with _ | ⟨s, e⟩ <;> simp [scanLoop, h, hnil]

/-- A two-line file whose first line matches a timestamp pattern and whose
second line has non-blank text scans to exactly one cue. -/
theorem scanCues_pair (l t s e : List Char)
    (hm : matchTs l = some (s, e)) (ht : pyStrip t ≠ []) :
    scanCues [l, t] = [(s, e, pyStrip t)] := by
  show scanLoop (0 + 1 + 1) [l, t] = [(s, e, pyStrip t)]
  simp [scanLoop, hm, ht]

/-- Decoding with an empty scan raises the "no caption lines" error. -/
theorem timestampedTxtToSrt_eq_error (lines : List (List Char))
    (h : scanCues lines = []) :
    timestampedTxtToSrt lines =
      Except.error ("No caption lines found to convert to SRT.".data) := by
  simp [timestampedTxtToSrt, h]

/-- Decoding with a non-empty scan returns the formatted, numbered cues. -/
theorem timestampedTxtToSrt_eq_ok (lines : List (List Char))
    (h : scanCues lines ≠ []) :
    timestampedTxtToSrt lines =
      Except.ok (numberFrom 1 ((scanCues lines).map
        (fun c => (fmtHms c.1, fmtHms c.2.1, c.2.2)))) := by
  simp [timestampedTxtToSrt, h]

/-- C1 counterexample: a file consisting of the one-line notation
`00:00:01.000 --> 00:00:02.000 | hello` yields no cue at all —
`_timestamped_txt_to_srt` raises its "no caption lines" error instead of
producing the cue (1s, 2s, "hello") the claim promises. -/
theorem oneline_pipe_no_cue :
    timestampedTxtToSrt ["00:00:01.000 --> 00:00:02.000 | hello".data] =
      Except.error ("No caption lines found to convert to SRT.".data) := rfl

/-- C1 amended: `_timestamped_txt_to_srt` does not accept the one-line
`HH:MM:SS.mmm --> HH:MM:SS.mmm | text` notation — both timestamp patterns are
anchored at end of line, so such a line matches neither pattern and is
skipped (alone in a file it leaves zero cues, a hard error); the same
timestamps are accepted only as a two-line block, a timestamp-only line
followed by the non-blank text line. -/
theorem oneline_pipe_skipped (t : List Char) (ht : pyStrip t ≠ []) :
    matchTs ("00:00:01.000 --> 00:00:02.000 | ".data ++ t) = none ∧
    timestampedTxtToSrt ["00:00:01.000 --> 00:00:02.000 | ".data ++ t] =
      Except.error ("No caption lines found to convert to SRT.".data) ∧
    timestampedTxtToSrt ["00:00:01.000 --> 00:00:02.000".data, t] =
      Except.ok [(1, "00:00:01,000".data, "00:00:02,000".data, pyStrip t)] := by
  have hnone : matchTs ("00:00:01.000 --> 00:00:02.000 | ".data ++ t) = none := rfl
  refine ⟨hnone, ?_, ?_⟩
  · exact timestampedTxtToSrt_eq_error _ (scanLoop_singleton 1 _)
  · have hm : matchTs "00:00:01.000 --> 00:00:02.000".data =
        some ("00:00:01.000".data, "00:00:02.000".data) := rfl
    have hscan : scanCues ["00:00:01.000 --> 00:00:02.000".data, t] =
        [("00:00:01.000".data, "00:00:02.000".data, pyStrip t)] :=
      scanCues_pair _ _ _ _ hm ht
    have hok := timestampedTxtToSrt_eq_ok
      ["00:00:01.000 --> 00:00:02.000".data, t] (by rw [hscan]; simp)
    have hf1 : fmtHms "00:00:01.000".data = "00:00:01,000".data := by decide
    have hf2 : fmtHms "00:00:02.000".data = "00:00:02,000".data := by decide
    rw [hok, hscan]
    simp only [List.map_cons, List.map_nil, numberFrom, hf1, hf2]

/-- C1 witness: the amended statement at text "hello". -/
theorem oneline_pipe_skipped_witness :
    pyStrip "hello".data ≠ [] ∧
    timestampedTxtToSrt ["00:00:01.000 --> 00:00:02.000".data, "hello".data] =
      Except.ok [(1, "00:00:01,000".data, "00:00:02,000".data, pyStrip "hello".data)] :=
  ⟨by decide, (oneline_pipe_skipped "hello".data (by decide)).2.2⟩

/-- `flush_block` on an empty buffer does nothing. -/
theorem flushBlock_of_buf_nil (st : VState) (h : st.buf = []) : flushBlock st = st := by
  cases st with
  | mk out idx buf =>
    simp only at h
    subst h
    rfl

/-- `flush_block` on a non-empty buffer, spelled out. -/
theorem flushBlock_cons (out : List (List Char)) (idx : ℕ) (b0 : List Char)
    (rest : List (List Char)) :
    flushBlock (VState.mk out idx (b0 :: rest)) =
      VState.mk (out ++ [natChars idx, replDotComma b0] ++ rest ++ [[]]) (idx + 1) [] := rfl

/-- A blank line just flushes the block. -/
theorem vttLine_blank (st : VState) : vttLine st ([] : List Char) = flushBlock st := rfl

/-- A header-area line leaves the state unchanged when the buffer is empty. -/
theorem vttLine_pre (st : VState) (p : List Char) (hb : st.buf = [])
    (hp : vttPreLine p) : vttLine st p = st := by
  rcases hp with h | h | h
  · simp [vttLine, h]
  · simp [vttLine, h]
  · have h2 : vttLine st p = flushBlock st := by
      simp only [vttLine, h]
      rfl
    rw [h2, flushBlock_of_buf_nil st hb]

/-- A cue timestamp line flushes the pending block and starts a new buffer
holding only the stripped line. -/
theorem vttLine_ts (st : VState) (l : List Char) (h : vttTsLine l) :
    vttLine st l = VState.mk (flushBlock st).out (flushBlock st).idx [pyStrip l] := by
  have h1 : ¬ (pyStrip l = "WEBVTT".data ∨ noteStart (pyStrip l) = true) := by
    rintro (he | hn)
    · have := h.1
      rw [he] at this
      exact absurd this (by decide)
    · rw [h.2] at hn
      exact Bool.noConfusion hn
  simp [vttLine, h1, h.1]

/-- A cue text line is buffered verbatim. -/
theorem vttLine_text (st : VState) (x : List Char) (h : vttTextLine x) :
    vttLine st x = VState.mk st.out st.idx (st.buf ++ [x]) := by
  have h1 : ¬ (pyStrip x = "WEBVTT".data ∨ noteStart (pyStrip x) = true) := by
    rintro (he | hn)
    · exact absurd he h.2.2.1
    · rw [h.2.2.2] at hn
      exact Bool.noConfusion hn
  simp [vttLine, h1, h.2.1, h.1]

/-- Processing header-area lines from an empty buffer is a no-op. -/
theorem vttFold_pre (pre : List (List Char)) (st : VState) (hb : st.buf = [])
    (hp : ∀ p ∈ pre, vttPreLine p) : pre.foldl vttLine st = st := by
  induction pre with
  | nil => rfl
  | cons p ps ih =>
    rw [List.foldl_cons, vttLine_pre st p hb (hp p (by simp))]
    exact ih (fun q hq => hp q (by simp [hq]))

/-- Processing cue text lines appends them all to the buffer. -/
theorem vttFold_text (texts : List (List Char)) (st : VState)
    (ht : ∀ x ∈ texts, vttTextLine x) :
    texts.foldl vttLine st = VState.mk st.out st.idx (st.buf ++ texts) := by
  induction texts generalizing st with
  | nil =>
    cases st
    simp
  | cons x xs ih =>
    rw [List.foldl_cons, vttLine_text st x (ht x (by simp))]
    rw [ih _ (fun q hq => ht q (by simp [hq]))]
    simp

/-- Processing one cue block (timestamp line, text lines, blank separator)
from an empty buffer emits the indexed SRT block and leaves the buffer
empty. -/
theorem vttFold_block (b : List Char × List (List Char)) (st : VState)
    (hb : st.buf = []) (hts : vttTsLine b.1) (htext : ∀ x ∈ b.2, vttTextLine x) :
    (blockLines b).foldl vttLine st =
      VState.mk
        (st.out ++ natChars st.idx :: replDotComma (pyStrip b.1) :: (b.2 ++ [[]]))
        (st.idx + 1) [] := by
  show (b.1 :: (b.2 ++ [[]])).foldl vttLine st = _
  rw [List.foldl_cons, vttLine_ts st b.1 hts, flushBlock_of_buf_nil st hb]
  rw [List.foldl_append, vttFold_text b.2 _ htext]
  simp only [List.foldl_cons, List.foldl_nil, vttLine_blank]
  rw [show ([pyStrip b.1] ++ b.2 : List (List Char)) = pyStrip b.1 :: b.2 from rfl]
  rw [flushBlock_cons]
  simp [List.append_assoc]

/-- Processing a run of cue blocks from an empty buffer emits the expected
SRT lines, numbering the cues consecutively from the current index. -/
theorem vttFold_blocks (blocks : List (List Char × List (List Char))) :
    ∀ st : VState, st.buf = [] →
      (∀ b ∈ blocks, vttTsLine b.1) → (∀ b ∈ blocks, ∀ x ∈ b.2, vttTextLine x) →
      (blocks.flatMap blockLines).foldl vttLine st =
        VState.mk (st.out ++ srtExpected st.idx blocks) (st.idx + blocks.length) [] := by
  induction blocks with
  | nil =>
    intro st hb _ _
    cases st with
    | mk out idx buf =>
      simp only at hb
      subst hb
      simp [srtExpected]
  | cons b bs ih =>
    intro st hb hts htext
    rw [List.flatMap_cons, List.foldl_append]
    rw [vttFold_block b st hb (hts b (by simp)) (htext b (by simp))]
    rw [ih _ rfl (fun q hq => hts q (by simp [hq]))
      (fun q hq => htext q (by simp [hq]))]
    simp only [srtExpected, List.length_cons, VState.mk.injEq]
    refine ⟨?_, ?_, trivial⟩
    · simp [List.append_assoc]
    · omega

/-- C7: `_vtt_to_srt` on a WEBVTT input — a header area of `WEBVTT`/`NOTE`/
blank lines followed by blank-separated cue blocks — strips the header and
NOTE lines, converts each cue's timestamp line by replacing `.` with `,`,
preserves every cue text line verbatim, and emits 1-based sequential indices
before each cue block. -/
theorem vttToSrt_converts (preamble : List (List Char))
    (blocks : List (List Char × List (List Char)))
    (hpre : ∀ p ∈ preamble, vttPreLine p)
    (hts : ∀ b ∈ blocks, vttTsLine b.1)
    (htext : ∀ b ∈ blocks, ∀ x ∈ b.2, vttTextLine x) :
    vttToSrtLines (preamble ++ blocks.flatMap blockLines) = srtExpected 1 blocks := by
  rw [vttToSrtLines, List.foldl_append]
  rw [vttFold_pre preamble (VState.mk [] 1 []) rfl hpre]
  rw [vttFold_blocks blocks (VState.mk [] 1 []) rfl hts htext]
  rw [flushBlock_of_buf_nil _ rfl]
  simp

/-- C7 witness: a concrete VTT file with a NOTE line and two cue blocks. -/
theorem vttToSrt_converts_witness :
    vttToSrtLines (["WEBVTT".data, "NOTE made by hand".data, "".data] ++
      [("00:00:01.000 --> 00:00:02.500".data, ["hello".data]),
       ("00:00:03.000 --> 00:00:04.000".data, ["big".data, "world".data])].flatMap
        blockLines) =
      srtExpected 1
        [("00:00:01.000 --> 00:00:02.500".data, ["hello".data]),
         ("00:00:03.000 --> 00:00:04.000".data, ["big".data, "world".data])] :=
  vttToSrt_converts _ _ (by decide) (by decide) (by decide)

/-- Joining a single trimmed word is the word itself. -/
theorem joinSpace_single (x : List Char) : joinSpace [x] = x := by
  simp [joinSpace, List.intercalate]

/-- Joining at least two words puts a single space after the first. -/
theorem joinSpace_cons (x y : List Char) (t : List (List Char)) :
    joinSpace (x :: y :: t) = x ++ ' ' :: joinSpace (y :: t) := by
  simp [joinSpace, List.intercalate, List.intersperse]

/-- Appending one more word to a non-empty group adds a space and the word. -/
theorem joinSpace_append_single (l : List (List Char)) (x : List Char) (h : l ≠ []) :
    joinSpace (l ++ [x]) = joinSpace l ++ ' ' :: x := by
  induction l with
  | nil => exact absurd rfl h
  | cons a t ih =>
    cases t with
    | nil =>
      show joinSpace [a, x] = joinSpace [a] ++ ' ' :: x
      rw [joinSpace_cons, joinSpace_single, joinSpace_single]
    | cons b t2 =>
      have ih' := ih (by simp)
      rw [List.cons_append] at ih'
      show joinSpace ((a :: b :: t2) ++ [x]) = joinSpace (a :: b :: t2) ++ ' ' :: x
      rw [List.cons_append, List.cons_append, joinSpace_cons, joinSpace_cons, ih']
      simp

/-- A member of a group is no longer than the joined text. -/
theorem joinSpace_mem_length_le (ls : List (List Char)) (x : List Char) (h : x ∈ ls) :
    x.length ≤ (joinSpace ls).length := by
  induction ls with
  | nil => cases h
  | cons a t ih =>
    cases t with
    | nil =>
      rw [List.mem_singleton.mp h, joinSpace_single]
    | cons b t2 =>
      rw [joinSpace_cons]
      rcases List.mem_cons.mp h with rfl | hm
      · simp
      · have := ih hm
        simp only [List.length_append, List.length_cons]
        omega

/-- In a group of at least two non-empty words the joined text strictly
exceeds each member (by at least the joining space). -/
theorem joinSpace_mem_two (ls : List (List Char)) (x : List Char) (h : x ∈ ls)
    (h2 : 2 ≤ ls.length) (hall : ∀ u ∈ ls, 1 ≤ u.length) :
    x.length + 1 ≤ (joinSpace ls).length := by
  match ls, h, h2, hall with
  | a :: b :: t, h, _, hall =>
    rw [joinSpace_cons]
    rcases List.mem_cons.mp h with rfl | hm
    · have hb := joinSpace_mem_length_le (b :: t) b (by simp)
      have h1 := hall b (by simp)
      simp only [List.length_append, List.length_cons]
      omega
    · have h1 := joinSpace_mem_length_le (b :: t) x hm
      have ha := hall a (by simp)
      simp only [List.length_append, List.length_cons]
      omega

/-- The run decomposition of the grouping loop from an arbitrary state: the
emitted segments extend the accumulator by the closures of a list of
non-empty runs whose concatenation is the current group followed by the valid
upcoming words; every run of two or more tokens joins to at most `max_chars`
characters. -/
theorem groupRuns_master (maxChars : ℤ) :
    ∀ (words : List Word) (segs : List (ℚ × ℚ × List Char)) (g : List Word) (cnt : ℕ),
      (g ≠ [] → (joinSpace (g.map wordText)).length ≤ cnt) →
      (2 ≤ g.length → (cnt : ℤ) ≤ maxChars) →
      ∃ runs : List (List Word),
        (∀ r ∈ runs, r ≠ []) ∧
        runs.flatten = g ++ words.filter validWord ∧
        groupFinish (words.foldl (groupStep maxChars) (GState.mk segs g cnt)) =
          segs ++ runs.map closeGroup ∧
        (∀ r ∈ runs, 2 ≤ r.length →
          ((joinSpace (r.map wordText)).length : ℤ) ≤ maxChars) := by
  intro words
  induction words with
  | nil =>
    intro segs g cnt hJ hK
    cases g with
    | nil =>
      exact ⟨[], by simp, by simp, by simp [groupFinish], by simp⟩
    | cons a t =>
      refine ⟨[a :: t], by simp, by simp, by simp [groupFinish], ?_⟩
      intro r hr h2
      rw [List.mem_singleton.mp hr]
      rw [List.mem_singleton.mp hr] at h2
      have h1 := hJ (by simp)
      have h3 := hK h2
      omega
  | cons w ws ih =>
    intro segs g cnt hJ hK
    rw [List.foldl_cons]
    by_cases hv : validWord w = true
    · rw [groupStep_eq maxChars (GState.mk segs g cnt) w hv]
      by_cases hc : ((GState.mk segs g cnt).charCount : ℤ) +
          (addedLength (GState.mk segs g cnt).group w : ℤ) > maxChars ∧
          (GState.mk segs g cnt).group ≠ []
      · rw [if_pos hc]
        have hg : g ≠ [] := hc.2
        have hJ1 : ([w] : List Word) ≠ [] →
            (joinSpace ([w].map wordText)).length ≤ addedLength g w := by
          intro _
          rw [List.map_singleton, joinSpace_single]
          have : addedLength g w = (wordText w).length + 1 := by
            have hie : g.isEmpty = false := by
              cases g with
              | nil => exact absurd rfl hg
              | cons a t => rfl
            simp [addedLength, hie]
          omega
        rcases ih (segs ++ [closeGroup g]) [w] (addedLength g w) hJ1
            (by intro h2; simp at h2) with ⟨runs, hne, hflat, hout, hbound⟩
        refine ⟨g :: runs, ?_, ?_, ?_, ?_⟩
        · intro r hr
          rcases List.mem_cons.mp hr with rfl | hm
          · exact hg
          · exact hne r hm
        · rw [List.flatten_cons, hflat, List.filter_cons_of_pos hv]
          simp
        · rw [hout]
          simp [List.append_assoc]
        · intro r hr h2
          rcases List.mem_cons.mp hr with rfl | hm
          · have h1 := hJ hg
            have h3 := hK h2
            omega
          · exact hbound r hm h2
      · rw [if_neg hc]
        have hnc : ¬ ((cnt : ℤ) + (addedLength g w : ℤ) > maxChars ∧ g ≠ []) := hc
        have hJ1 : g ++ [w] ≠ [] →
            (joinSpace ((g ++ [w]).map wordText)).length ≤ cnt + addedLength g w := by
          intro _
          cases hg : g with
          | nil =>
            simp only [hg, List.nil_append, List.map_singleton, joinSpace_single]
            have : addedLength [] w = (wordText w).length := by simp [addedLength]
            omega
          | cons a t =>
            rw [← hg]
            have hgne : g ≠ [] := by rw [hg]; simp
            rw [List.map_append, List.map_singleton,
              joinSpace_append_single _ _ (by simpa using hgne)]
            have hJ2 := hJ hgne
            have hadd : addedLength g w = (wordText w).length + 1 := by
              have hie : g.isEmpty = false := by rw [hg]; rfl
              simp [addedLength, hie]
            simp only [List.length_append, List.length_cons]
            omega
        have hK1 : 2 ≤ (g ++ [w]).length → ((cnt + addedLength g w : ℕ) : ℤ) ≤ maxChars := by
          intro h2
          have hgne : g ≠ [] := by
            intro hg
            rw [hg] at h2
            simp at h2
          have := not_and.mp hnc
          have hle : ¬ ((cnt : ℤ) + (addedLength g w : ℤ) > maxChars) := by
            intro hgt
            exact (this hgt) hgne
          push_cast
          omega
        rcases ih segs (g ++ [w]) (cnt + addedLength g w) hJ1 hK1 with
          ⟨runs, hne, hflat, hout, hbound⟩
        refine ⟨runs, hne, ?_, hout, hbound⟩
        rw [hflat, List.filter_cons_of_pos hv]
        simp
    · have hstep : groupStep maxChars (GState.mk segs g cnt) w =
          GState.mk segs g cnt := by
        simp [groupStep, hv]
      rw [hstep]
      rcases ih segs g cnt hJ hK with ⟨runs, hne, hflat, hout, hbound⟩
      refine ⟨runs, hne, ?_, hout, hbound⟩
      rw [hflat, List.filter_cons_of_neg (by simp [hv])]

/-- The run decomposition of `group_into_segments` itself: the cues are the
closures of consecutive non-empty runs of the valid words. -/
theorem groupIntoSegments_runs (words : List Word) (maxChars : ℤ) :
    ∃ runs : List (List Word),
      (∀ r ∈ runs, r ≠ []) ∧
      runs.flatten = words.filter validWord ∧
      groupIntoSegments words maxChars = runs.map closeGroup ∧
      (∀ r ∈ runs, 2 ≤ r.length →
        ((joinSpace (r.map wordText)).length : ℤ) ≤ maxChars) := by
  rcases groupRuns_master maxChars words [] [] 0
      (by intro h; exact absurd rfl h) (by intro h; simp at h) with
    ⟨runs, hne, hflat, hout, hbound⟩
  refine ⟨runs, hne, by simpa using hflat, ?_, hbound⟩
  rw [groupIntoSegments, hout]
  simp

/-- C9: a cue produced by `group_into_segments` from two or more tokens has
text of length at most `max_chars`: the cues are exactly the closures of a
run decomposition of the valid words, and every run of two or more tokens
joins to at most `max_chars` characters — so only single-token cues can
exceed the bound. -/
theorem groupIntoSegments_multitoken_bounded :
    ∀ (words : List Word) (maxChars : ℤ),
      ∃ runs : List (List Word),
        (∀ r ∈ runs, r ≠ []) ∧
        runs.flatten = words.filter validWord ∧
        groupIntoSegments words maxChars = runs.map closeGroup ∧
        (∀ r ∈ runs, 2 ≤ r.length →
          ((joinSpace (r.map wordText)).length : ℤ) ≤ maxChars) :=
  fun words maxChars => groupIntoSegments_runs words maxChars

/-- C9 witness: the run decomposition on the hello/world/foo example. -/
theorem groupIntoSegments_multitoken_bounded_witness :
    ∃ runs : List (List Word),
      (∀ r ∈ runs, r ≠ []) ∧
      runs.flatten =
        [Word.mk 0 1 "hello".data, Word.mk 1 2 "world".data,
          Word.mk 2 3 "foo".data].filter validWord ∧
      groupIntoSegments
          [Word.mk 0 1 "hello".data, Word.mk 1 2 "world".data,
            Word.mk 2 3 "foo".data] 10 =
        runs.map closeGroup ∧
      (∀ r ∈ runs, 2 ≤ r.length →
        ((joinSpace (r.map wordText)).length : ℤ) ≤ 10) :=
  groupIntoSegments_multitoken_bounded
    [Word.mk 0 1 "hello".data, Word.mk 1 2 "world".data, Word.mk 2 3 "foo".data] 10

/-- C8: a single valid token whose trimmed text is longer than `max_chars` is
never split, dropped, or truncated — `group_into_segments` always emits the
cue `(start, end, trimmed text)` built from that token alone. -/
theorem overlong_token_own_cue :
    ∀ (words : List Word) (maxChars : ℤ) (w : Word),
      w ∈ words → validWord w = true → maxChars < ((wordText w).length : ℤ) →
      (w.start, w.stop, wordText w) ∈ groupIntoSegments words maxChars := by
  intro words maxChars w hw hv hlong
  rcases groupIntoSegments_runs words maxChars with ⟨runs, hne, hflat, hout, hbound⟩
  have hmemf : w ∈ words.filter validWord := List.mem_filter.mpr ⟨hw, hv⟩
  rw [← hflat] at hmemf
  rcases List.mem_flatten.mp hmemf with ⟨r, hr, hwr⟩
  have hval : ∀ u ∈ r, validWord u = true := by
    intro u hu
    have : u ∈ words.filter validWord := by
      rw [← hflat]
      exact List.mem_flatten.mpr ⟨r, hr, hu⟩
    exact (List.mem_filter.mp this).2
  have hsing : r = [w] := by
    cases hcase : r with
    | nil =>
      rw [hcase] at hwr
      cases hwr
    | cons a t =>
      cases t with
      | nil =>
        rw [hcase] at hwr
        rw [List.mem_singleton.mp hwr]
      | cons b t2 =>
        exfalso
        have h2 : 2 ≤ r.length := by rw [hcase]; simp
        have hb := hbound r hr h2
        have hlow : (wordText w).length + 1 ≤ (joinSpace (r.map wordText)).length := by
          refine joinSpace_mem_two (r.map wordText) (wordText w)
            (List.mem_map.mpr ⟨w, hwr, rfl⟩) (by rw [List.length_map]; exact h2) ?_
          intro u hu
          rcases List.mem_map.mp hu with ⟨v, hv2, rfl⟩
          have := hval v hv2
          simp only [validWord, decide_eq_true_eq] at this
          exact List.length_pos.mpr this
        omega
  have hclose : closeGroup [w] = (w.start, w.stop, wordText w) := by
    simp [closeGroup, joinSpace_single]
  rw [hout]
  refine List.mem_map.mpr ⟨[w], ?_, hclose⟩
  rw [← hsing]
  exact hr

/-- C8 witness: token "elephant" with `max_chars = 3` is emitted whole. -/
theorem overlong_token_own_cue_witness :
    ((0 : ℚ), (1 : ℚ), "elephant".data) ∈
      groupIntoSegments [Word.mk 0 1 "elephant".data] 3 :=
  overlong_token_own_cue [Word.mk 0 1 "elephant".data] 3 (Word.mk 0 1 "elephant".data)
    (by decide) (by decide) (by decide)

/-- Consecutive closures of runs do not overlap when the concatenation of the
runs is pairwise ordered (each earlier word ends before each later one
starts). -/
theorem chain_of_runs (runs : List (List Word))
    (hne : ∀ r ∈ runs, r ≠ [])
    (hp : List.Pairwise (fun a b : Word => a.stop ≤ b.start) runs.flatten) :
    List.Chain' (fun c d : ℚ × ℚ × List Char => c.2.1 ≤ d.1) (runs.map closeGroup) := by
  induction runs with
  | nil => simp
  | cons r1 rest ih =>
    cases rest with
    | nil => simp
    | cons r2 rest2 =>
      rw [List.map_cons, List.map_cons, List.chain'_cons]
      have hflat : (r1 :: r2 :: rest2).flatten = r1 ++ (r2 :: rest2).flatten := by
        simp
      rw [hflat] at hp
      rcases List.pairwise_append.mp hp with ⟨_, hp2, hcross⟩
      constructor
      · have h1 : r1 ≠ [] := hne r1 (by simp)
        have h2 : r2 ≠ [] := hne r2 (by simp)
        have hlast : closeGroup r1 =
            (((r1.head?).map Word.start).getD 0, r1.getLast h1 |>.stop,
              joinSpace (r1.map wordText)) := by
          simp [closeGroup, List.getLast?_eq_getLast r1 h1]
        have hhead : closeGroup r2 =
            (r2.head h2 |>.start, ((r2.getLast?).map Word.stop).getD 0,
              joinSpace (r2.map wordText)) := by
          simp [closeGroup, List.head?_eq_head h2]
        rw [hlast, hhead]
        exact hcross (r1.getLast h1) (List.getLast_mem h1)
          (r2.head h2) (List.mem_flatten.mpr ⟨r2, by simp, List.head_mem h2⟩)
      · rw [← List.map_cons]
        exact ih (fun r hr => hne r (by simp [hr])) hp2

/-- C6 counterexample: the cues of `group_into_segments` can overlap — on the
word list [(0,10,"aaaa"), (1,2,"bbbb")] (sorted by start, but the first word
ends after the second begins) with `max_chars = 4` the cues are
(0,10,"aaaa"), (1,2,"bbbb"), and 10 ≤ 1 fails. -/
theorem grouped_cues_can_overlap :
    ¬ List.Chain' (fun c d : ℚ × ℚ × List Char => c.2.1 ≤ d.1)
      (groupIntoSegments [Word.mk 0 10 "aaaa".data, Word.mk 1 2 "bbbb".data] 4) := by
  have hseg : groupIntoSegments [Word.mk 0 10 "aaaa".data, Word.mk 1 2 "bbbb".data] 4 =
      [(0, 10, "aaaa".data), (1, 2, "bbbb".data)] := by decide
  rw [hseg]
  intro hc
  have h10 : (10 : ℚ) ≤ 1 := (List.chain'_cons.mp hc).1
  norm_num at h10

/-- C6 amended: when the word list is pairwise non-overlapping in order (each
word's end is at most every later word's start — as a time-sorted
transcription is), consecutive cues produced by `group_into_segments` do not
overlap: each cue's end is at most the next cue's start.  (On arbitrary word
lists this fails; see the counterexample.) -/
theorem grouped_cues_nonoverlapping (words : List Word) (maxChars : ℤ)
    (hsort : List.Pairwise (fun a b : Word => a.stop ≤ b.start) words) :
    List.Chain' (fun c d : ℚ × ℚ × List Char => c.2.1 ≤ d.1)
      (groupIntoSegments words maxChars) := by
  rcases groupIntoSegments_runs words maxChars with ⟨runs, hne, hflat, hout, _⟩
  rw [hout]
  refine chain_of_runs runs hne ?_
  rw [hflat]
  exact List.Pairwise.sublist (List.filter_sublist words) hsort

/-- C6 witness: two disjoint words grouped with `max_chars = 2` give
non-overlapping cues. -/
theorem grouped_cues_nonoverlapping_witness :
    List.Chain' (fun c d : ℚ × ℚ × List Char => c.2.1 ≤ d.1)
      (groupIntoSegments [Word.mk 0 1 "ab".data, Word.mk 2 3 "cd".data] 2) :=
  grouped_cues_nonoverlapping [Word.mk 0 1 "ab".data, Word.mk 2 3 "cd".data] 2
    (by decide)

end FBCap
